import Mathlib

/-!
A shallow embedding of `open_cpp_utils::directed_tree` (src/directed_tree.h).

The C++ arena (`graph_ : Node_*`, `data_ : T*`) is modelled as total functions
`Nat → Node_` and `Nat → Option V` (a slot holds `none` when its value has been
destroyed or never constructed); `size_`, `capacity_` are `Nat`s and the free
list `freed_` (a `std::deque<node>`) is a `List Nat` with its front at the head.
All in-place pointer writes are modelled as sequential function updates, reading
the current array at every access exactly as the C++ reference-aliasing does.
Unbounded `while` loops of the source (the `last_child` walk, the erase
cascade) take explicit fuel; the erase cascade additionally reports whether the
worklist emptied before the fuel ran out (`false` models divergence).
-/

/-- The node record `directed_tree::Node_`: `parent, child, prev_sibling,
next_sibling` ids, a `flags` word whose bit 0 is the `valid` flag, and `depth`. -/
structure Node_ where
  parent : Nat
  child : Nat
  prev_sibling : Nat
  next_sibling : Nat
  flags : Nat
  depth : Nat
  deriving Repr, DecidableEq

/-- The default-constructed record `Node_()` : all fields zero (invalid). -/
def Node_.init : Node_ := ⟨0, 0, 0, 0, 0, 0⟩

instance : Inhabited Node_ := ⟨Node_.init⟩

/-- `graph_[i] = n` : pointwise update of the record array. -/
def upd (g : Nat → Node_) (i : Nat) (n : Node_) : Nat → Node_ :=
  fun j => if j = i then n else g j

/-- `construct_at` / `destroy_at` on the value array. -/
def updD {V : Type} (d : Nat → Option V) (i : Nat) (x : Option V) : Nat → Option V :=
  fun j => if j = i then x else d j

/-- `flags & Node_::valid` (the `valid` bit is `0x0001`). -/
def nodeValid (n : Node_) : Bool := n.flags &&& 1 != 0

/-- The tree state: arena size and capacity, record array, value array,
and the free list (front at the head of the list). -/
structure directed_tree (V : Type) where
  size : Nat
  capacity : Nat
  graph : Nat → Node_
  data : Nat → Option V
  freed : List Nat

namespace directed_tree

variable {V : Type} [Inhabited V]

/-- `valid(id)` : whether the valid flag is set in the node. -/
def valid (t : directed_tree V) (id : Nat) : Bool := nodeValid (t.graph id)

/-- `directed_tree::grow_` : double the capacity (from a first capacity of 10),
copy the first `size_` records and values, default-initialize the new slots,
and (only when the arena was empty) mark slot 0 valid as the root. -/
def grow_ (t : directed_tree V) : directed_tree V :=
  let cap' := if t.capacity = 0 then 10 else t.capacity * 2
  if 0 < t.size then
    { t with
      capacity := cap'
      graph := fun i => if i < t.size then t.graph i
                        else if i < cap' then Node_.init else t.graph i
      data := fun i => if i < t.size then t.data i
                       else if i < cap' then some default else t.data i }
  else
    { t with
      capacity := cap'
      graph := fun i => if i < cap' then
                          (if i = 0 then { Node_.init with flags := 1 } else Node_.init)
                        else t.graph i
      data := fun i => if i < cap' then some default else t.data i }

/-- `directed_tree::push_back_` : grow when full, construct the value at slot
`size_`, return `size_++`. -/
def push_back_ (t : directed_tree V) (v : V) : directed_tree V × Nat :=
  let t1 := if t.capacity ≤ t.size then grow_ t else t
  let t2 := { t1 with data := updD t1.data t1.size (some v) }
  ({ t2 with size := t2.size + 1 }, t2.size)

/-- The default constructor `directed_tree()` : empty arena, then
`push_back_(T())` installs the root. -/
def mkTree (v : V) : directed_tree V :=
  (push_back_ ⟨0, 0, fun _ => Node_.init, fun _ => none, []⟩ v).1

/-- `directed_tree::next_id` : the free-list front when the free list is
non-empty, otherwise the current arena size; the tree is not touched. -/
def next_id (t : directed_tree V) : Nat :=
  match t.freed with
  | [] => t.size
  | f :: _ => f

/-- The `while` walk of `directed_tree::last_child` from a chain head `c` :
stop at 0 or at a node whose `next_sibling` is 0.  The source loop is
unbounded; `fuel` bounds the walk (any fuel above the chain length is exact). -/
def last_child_go (g : Nat → Node_) : Nat → Nat → Nat
  | 0, c => c
  | fuel + 1, c =>
    if c = 0 then c
    else if (g c).next_sibling = 0 then c
    else last_child_go g fuel ((g c).next_sibling)

/-- `directed_tree::last_child` : walk the sibling chain from `first_child id`. -/
def last_child (g : Nat → Node_) (id : Nat) (fuel : Nat) : Nat :=
  last_child_go g fuel ((g id).child)

/-- The link-surgery tail of `directed_tree::insert`, run once the id has been
popped: resolve the insertion point (`sib = 0` means append after
`last_child(p_id)`), conditionally repoint the parent's `child`, initialize
the node record, and splice the sibling links exactly as the source writes
them (note: in the insert-before branch the source never updates the previous
sibling's `next_sibling`). -/
def insertAt (t0 : directed_tree V) (id : Nat) (p_id : Nat) (sib : Nat) :
    directed_tree V :=
  let s_id := if sib = 0 then last_child t0.graph p_id (t0.size + 2) else sib
  let g := t0.graph
  let g := if (g p_id).child = 0 ∨ (s_id = (g p_id).child ∧ sib ≠ 0) then
             upd g p_id { g p_id with child := id } else g
  let g := upd g id { g id with next_sibling := 0, prev_sibling := 0 }
  let g := upd g id { g id with parent := p_id }
  let g := upd g id { g id with depth := (g p_id).depth + 1 }
  let g := upd g id { g id with flags := 1 }
  let g := upd g id { g id with child := 0 }
  if s_id = 0 then { t0 with graph := g }
  else if sib = 0 then
    let g := upd g id { g id with next_sibling := (g s_id).next_sibling }
    let g := upd g id { g id with prev_sibling := s_id }
    let g := upd g s_id { g s_id with next_sibling := id }
    { t0 with graph := g }
  else
    let g := upd g id { g id with next_sibling := s_id }
    let g := upd g id { g id with prev_sibling := (g s_id).prev_sibling }
    let g := upd g s_id { g s_id with prev_sibling := id }
    { t0 with graph := g }

/-- `directed_tree::insert(data, p_id, sib)` : obtain an id — when the free
list is empty a fresh arena slot is pushed onto it first (`push_back_`), then
the front is popped and the value constructed in that slot — and run the link
surgery `insertAt`; the popped id is returned. -/
def insert (t : directed_tree V) (v : V) (p_id : Nat) (sib : Nat) :
    directed_tree V × Nat :=
  match t.freed with
  | [] =>
    let r := push_back_ t v
    (insertAt { r.1 with freed := [] } r.2 p_id sib, r.2)
  | f :: rest =>
    (insertAt { t with data := updD t.data f (some v), freed := rest } f p_id sib, f)

/-- `directed_tree::swap(a, b)` : exchange the two records wholesale, then
repoint either parent's `child` when it pointed at the record that moved.
The two conditionals run sequentially on the already-swapped array, exactly as
the source's references read it. -/
def swap (t : directed_tree V) (a b : Nat) : directed_tree V :=
  let A := t.graph a
  let B := t.graph b
  let g := upd (upd t.graph a B) b A
  let p1 := (g b).parent
  let g := if (g p1).child = a then upd g p1 { g p1 with child := b } else g
  let p2 := (g a).parent
  let g := if (g p2).child = b then upd g p2 { g p2 with child := a } else g
  { t with graph := g }

/-- The `for` loop of `directed_tree::clear` over `i < size_` : every valid
slot has its flags cleared, its value destroyed and its id pushed onto the
free list (the source never empties `freed_`). -/
def clearLoop (idxs : List Nat) (g : Nat → Node_) (d : Nat → Option V)
    (fr : List Nat) : (Nat → Node_) × (Nat → Option V) × List Nat :=
  match idxs with
  | [] => (g, d, fr)
  | i :: rest =>
    if nodeValid (g i) then
      clearLoop rest (upd g i { g i with flags := 0 }) (updD d i none) (fr ++ [i])
    else
      clearLoop rest g d fr

/-- `directed_tree::clear` : tear down every valid slot, then deallocate both
arrays and reset `capacity_` and `size_` to zero. -/
def clear (t : directed_tree V) : directed_tree V :=
  let r := clearLoop (List.range t.size) t.graph t.data t.freed
  { size := 0, capacity := 0
    graph := fun _ => Node_.init, data := fun _ => none, freed := r.2.2 }

/-- `graph_[i].flags = 0` : the per-node teardown write of `erase`. -/
def clearFlagsAt (g : Nat → Node_) (i : Nat) : Nat → Node_ :=
  upd g i { g i with flags := 0 }

/-- `graph_[p].child = c`. -/
def setChildAt (g : Nat → Node_) (p c : Nat) : Nat → Node_ :=
  upd g p { g p with child := c }

/-- `graph_[p].prev_sibling = v`. -/
def setPrevAt (g : Nat → Node_) (p v : Nat) : Nat → Node_ :=
  upd g p { g p with prev_sibling := v }

/-- `graph_[p].next_sibling = v`. -/
def setNextAt (g : Nat → Node_) (p v : Nat) : Nat → Node_ :=
  upd g p { g p with next_sibling := v }

/-- The erase cascade (`while(stack.empty() == false)` in
`directed_tree::erase`) : pop the front, clear its flags, enqueue it on the
free list, destroy its value, then push its `next_sibling` and `first_child`
(in that order, each to the front, when non-zero).  The boolean reports whether
the worklist emptied before the fuel ran out; `false` models the source loop
not terminating within the given fuel. -/
def eraseLoop : Nat → List Nat → (Nat → Node_) → List Nat → (Nat → Option V) →
    ((Nat → Node_) × List Nat × (Nat → Option V)) × Bool
  | _, [], g, fr, d => ((g, fr, d), true)
  | 0, _ :: _, g, fr, d => ((g, fr, d), false)
  | fuel + 1, n :: rest, g, fr, d =>
    let g1 := clearFlagsAt g n
    let st1 := if (g1 n).next_sibling ≠ 0 then (g1 n).next_sibling :: rest else rest
    let st2 := if (g1 n).child ≠ 0 then (g1 n).child :: st1 else st1
    eraseLoop fuel st2 g1 (fr ++ [n]) (updD d n none)

/-- The pointer surgery `erase` performs before the cascade: clear the node's
flags, repoint the parent's `child` to the node's `next_sibling`
(unconditionally, as the source does), then patch the two sibling neighbours,
each write reading the array as it then stands. -/
def erasePatch (g0 : Nat → Node_) (id : Nat) : Nat → Node_ :=
  let g1 := clearFlagsAt g0 id
  let g2 := setChildAt g1 ((g1 id).parent) ((g1 id).next_sibling)
  let g3 := if (g2 id).next_sibling ≠ 0 then
              setPrevAt g2 ((g2 id).next_sibling) ((g2 id).prev_sibling)
            else g2
  if (g3 id).prev_sibling ≠ 0 then
    setNextAt g3 ((g3 id).prev_sibling) ((g3 id).next_sibling)
  else g3

/-- `directed_tree::erase(id)` : no-op on the root; otherwise enqueue the id,
destroy its value, run the pointer surgery `erasePatch`, and run the cascade
seeded with the node's `child` — unconditionally, so the seed is 0 when the
node has no children, exactly as `node_queue stack{ erased.child }` builds it
in the source. -/
def erase (t : directed_tree V) (id : Nat) (fuel : Nat) : directed_tree V × Bool :=
  if id = 0 then (t, true)
  else
    let g := erasePatch t.graph id
    let r := eraseLoop fuel [(g id).child] g (t.freed ++ [id]) (updD t.data id none)
    ({ t with graph := r.1.1, freed := r.1.2.1, data := r.1.2.2 }, r.2)

/-- The number of valid slots in the arena. -/
def valid_count (t : directed_tree V) : Nat :=
  ((Finset.range t.size).filter (fun i => nodeValid (t.graph i) = true)).card

end directed_tree

/-! ## Traversal cursors -/

/-- The ids the `unordered` cursor delivers to the visitor driver, starting the
scan at index `current` : the cursor skips invalid slots and the root, then
returns the index found, or 0 (stopping the driver) once the index reaches the
arena extent (`size`).  (The source's terminator compares against
`graph_.size()`, written on the raw arena pointer; the arena extent is the
reading the surrounding code supports.)  The source's skip loop is unbounded,
so the emission is fuel-bounded; running out of fuel only truncates the list. -/
def unorderedRun (g : Nat → Node_) (size : Nat) : Nat → Nat → List Nat
  | _, 0 => []
  | current, fuel + 1 =>
    if nodeValid (g current) = false ∨ current = 0 then
      unorderedRun g size (current + 1) fuel
    else if current = size then []
    else current :: unorderedRun g size (current + 1) fuel

/-- One advance of the `breadth_first` cursor on queue `q` (front at the list
head) : pop the BACK of the queue, push the popped node's `next_sibling` to the
back and its `first_child` to the front, and return the popped id — except that
the call returns 0 when the queue is empty after the pushes.  `none` models the
undefined pop from an empty queue. -/
def breadth_first_adv (g : Nat → Node_) (q : List Nat) :
    Option (List Nat × Nat) :=
  match q.getLast? with
  | none => none
  | some id =>
    let q1 := q.dropLast
    let q2 := if (g id).next_sibling ≠ 0 then q1 ++ [(g id).next_sibling] else q1
    let q3 := if (g id).child ≠ 0 then (g id).child :: q2 else q2
    some (q3, if q3 = [] then 0 else id)

/-- The ids a driver loop (`while(id = order_(id))`) obtains from repeated
`breadth_first` advances starting from queue `q`. -/
def bfRun (g : Nat → Node_) : List Nat → Nat → List Nat
  | _, 0 => []
  | q, fuel + 1 =>
    match breadth_first_adv g q with
    | none => []
    | some (q', r) => if r = 0 then [] else r :: bfRun g q' fuel

/-- One advance of the `pre_order` cursor: given the previously returned id,
push its `next_sibling` then its `first_child` to the front of the queue, then
pop the front and return it (0 when the queue is empty). -/
def pre_order_adv (g : Nat → Node_) (q : List Nat) (id : Nat) :
    List Nat × Nat :=
  let q1 := if (g id).next_sibling ≠ 0 then (g id).next_sibling :: q else q
  let q2 := if (g id).child ≠ 0 then (g id).child :: q1 else q1
  match q2 with
  | [] => ([], 0)
  | n :: rest => (rest, n)

/-- The ids the visitor driver delivers from repeated `pre_order` advances,
starting (as `traverser::operator()` does) from id 0. -/
def preOrderRun (g : Nat → Node_) : List Nat → Nat → Nat → List Nat
  | _, _, 0 => []
  | q, id, fuel + 1 =>
    let r := pre_order_adv g q id
    if r.2 = 0 then [] else r.2 :: preOrderRun g r.1 r.2 fuel

/-- The forward sibling chain starting at `c` : follow `next_sibling` until 0
(fuel-bounded; any fuel above the chain length is exact). -/
def siblingChain (g : Nat → Node_) : Nat → Nat → List Nat
  | 0, _ => []
  | fuel + 1, c => if c = 0 then [] else c :: siblingChain g fuel ((g c).next_sibling)

/-- The child iteration order of `p` : start at `first_child p`, follow
`next_sibling`. -/
def childList (g : Nat → Node_) (p : Nat) (fuel : Nat) : List Nat :=
  siblingChain g fuel ((g p).child)

/-! ## Reachability through the link structure -/

/-- One hop of the erase cascade's frontier: from `x` to its `next_sibling` or
its `first_child`, never to 0. -/
def hstep (g : Nat → Node_) (x y : Nat) : Prop :=
  y ≠ 0 ∧ (y = (g x).next_sibling ∨ y = (g x).child)

/-- Reachability along `next_sibling` / `first_child` hops. -/
def reaches (g : Nat → Node_) : Nat → Nat → Prop :=
  Relation.ReflTransGen (hstep g)

/-- `d` is a descendant of `id` : `id` has a first child and `d` is reachable
from that child along `next_sibling` / `first_child` hops.  In a well-formed
tree this is exactly the subtree below `id`. -/
def Descendant {V : Type} (t : directed_tree V) (id d : Nat) : Prop :=
  (t.graph id).child ≠ 0 ∧ reaches t.graph ((t.graph id).child) d

/-! ## Concrete trees used by the scenario claims and counterexamples -/

open directed_tree

/-- The spec's scenario tree: append A under the root, append B under the
root, append C under A.  The inserts hand out ids A = 1, B = 2, C = 3. -/
def treeABC : directed_tree Nat :=
  (insert (insert (insert (mkTree 0) 10 0 0).1 20 0 0).1 30 1 0).1

/-- A root with a single (childless) child, id 1. -/
def treeLeaf : directed_tree Nat :=
  (insert (mkTree 0) 10 0 0).1

/-- A root with two children, ids 1 and 2, in that sibling order. -/
def treeTwo : directed_tree Nat :=
  (insert (insert (mkTree 0) 10 0 0).1 20 0 0).1

/-- A root with three children, ids 1, 2 and 3, in that sibling order. -/
def treeThree : directed_tree Nat :=
  (insert (insert (insert (mkTree 0) 10 0 0).1 20 0 0).1 30 0 0).1

/-! ## Basic helper lemmas -/

theorem upd_self (g : Nat → Node_) (i : Nat) (n : Node_) : upd g i n i = n := by
  simp [upd]

theorem upd_ne (g : Nat → Node_) (i j : Nat) (n : Node_) (h : j ≠ i) :
    upd g i n j = g j := by
  simp [upd, h]

/-- A write whose record keeps the flags of the overwritten slot preserves the
flags of every slot. -/
theorem upd_pres_flags {g : Nat → Node_} {p : Nat} {n : Node_}
    (h : n.flags = (g p).flags) (x : Nat) : (upd g p n x).flags = (g x).flags := by
  unfold upd; split
  · next hx => rw [hx, h]
  · rfl

theorem upd_pres_next {g : Nat → Node_} {p : Nat} {n : Node_}
    (h : n.next_sibling = (g p).next_sibling) (x : Nat) :
    (upd g p n x).next_sibling = (g x).next_sibling := by
  unfold upd; split
  · next hx => rw [hx, h]
  · rfl

theorem upd_pres_child {g : Nat → Node_} {p : Nat} {n : Node_}
    (h : n.child = (g p).child) (x : Nat) :
    (upd g p n x).child = (g x).child := by
  unfold upd; split
  · next hx => rw [hx, h]
  · rfl

theorem upd_pres_parent {g : Nat → Node_} {p : Nat} {n : Node_}
    (h : n.parent = (g p).parent) (x : Nat) :
    (upd g p n x).parent = (g x).parent := by
  unfold upd; split
  · next hx => rw [hx, h]
  · rfl

theorem upd_pres_prev {g : Nat → Node_} {p : Nat} {n : Node_}
    (h : n.prev_sibling = (g p).prev_sibling) (x : Nat) :
    (upd g p n x).prev_sibling = (g x).prev_sibling := by
  unfold upd; split
  · next hx => rw [hx, h]
  · rfl

theorem grow_size {V : Type} [Inhabited V] (t : directed_tree V) :
    (grow_ t).size = t.size := by
  unfold grow_
  dsimp only
  split <;> rfl

theorem push_back_snd {V : Type} [Inhabited V] (t : directed_tree V) (v : V) :
    (push_back_ t v).2 = t.size := by
  unfold push_back_
  dsimp only
  split
  · exact grow_size t
  · rfl

/-! ## C8 : next_id / insert agreement -/

/-- C8.  `next_id()` reads the state without changing it (it is a pure
function of the tree here, mirroring the `const` member): it returns the head
of the free list when the free list is non-empty and otherwise the current
arena size, and `insert` performed on the same state returns exactly that id,
for every value, parent and sibling argument. -/
theorem next_id_insert_agree {V : Type} [Inhabited V] (t : directed_tree V)
    (v : V) (p s : Nat) :
    (directed_tree.insert t v p s).2 = next_id t ∧
    next_id t = (match t.freed with | [] => t.size | f :: _ => f) := by
  constructor
  · unfold directed_tree.insert next_id
    cases h : t.freed with
    | nil => exact push_back_snd t v
    | cons f rest => rfl
  · rfl

/-! ## C9 : the pre-order scenario -/

set_option maxHeartbeats 1600000 in
/-- C9.  In the tree built by appending A (id 1) under the root, then B (id 2)
under the root, then C (id 3) under A, the visitor driver running the
`pre_order` cursor from id 0 delivers exactly 1, 3, 2 (that is A, C, B), and
the advance following the last delivery reports exhaustion with id 0. -/
theorem pre_order_scenario :
    preOrderRun treeABC.graph [] 0 10 = [1, 3, 2] ∧
    pre_order_adv treeABC.graph [] 2 = ([], 0) := by
  decide

/-! ## C10 : the breadth-first exhaustion short-circuit -/

/-- C10.  Whenever a `breadth_first` advance pops an id and the pending queue
is empty after the push steps for that id, the call returns 0, the exhaustion
sentinel, instead of the popped id — so the final pending node of a
breadth-first traversal is never delivered. -/
theorem bf_final_pending_suppressed (g : Nat → Node_) (q q' : List Nat) (r : Nat)
    (h : breadth_first_adv g q = some (q', r)) (hq : q' = []) : r = 0 := by
  unfold breadth_first_adv at h
  cases hl : q.getLast? with
  | none => rw [hl] at h; cases h
  | some id =>
    rw [hl] at h
    simp only [Option.some.injEq, Prod.mk.injEq] at h
    obtain ⟨h1, h2⟩ := h
    rw [← h2, if_pos (h1.trans hq)]

theorem bf_final_pending_suppressed_witness :
    breadth_first_adv (fun _ => Node_.init) [5] = some ([], 0) ∧ (0 : Nat) = 0 :=
  ⟨by decide, bf_final_pending_suppressed (fun _ => Node_.init) [5] [] 0 (by decide) rfl⟩

/-! ## C7 : breadth-first push placement and visit order -/

set_option maxHeartbeats 1600000 in
/-- C7 counterexample.  In the scenario tree (A = 1 with child C = 3 and later
sibling B = 2), a breadth-first traversal whose pending queue holds A emits A
and then B; C — the child of the just-visited node — is never emitted at all,
so the children of the current node are NOT visited ahead of later unrelated
siblings, contrary to the claim's consequence. -/
theorem bf_children_not_prioritized :
    (treeABC.graph 1).child = 3 ∧ (treeABC.graph 1).next_sibling = 2 ∧
    bfRun treeABC.graph [1] 10 = [1, 2] ∧ 3 ∉ bfRun treeABC.graph [1] 10 := by
  decide

/-- C7 amended.  A `breadth_first` advance on a non-empty queue pops the BACK
of the queue, pushes the popped node's `next_sibling` to the back and its
`first_child` to the front (exactly the push placement the claim states), and
returns the popped id unless the queue emptied; because the pop side is the
back, the front-pushed child is served last, so later siblings are visited
ahead of the current node's children, not the other way around. -/
theorem bf_push_placement (g : Nat → Node_) (rest : List Nat) (n : Nat) :
    breadth_first_adv g (rest ++ [n]) =
      some ((if (g n).child ≠ 0 then [(g n).child] else []) ++ rest ++
              (if (g n).next_sibling ≠ 0 then [(g n).next_sibling] else []),
            if ((if (g n).child ≠ 0 then [(g n).child] else []) ++ rest ++
                (if (g n).next_sibling ≠ 0 then [(g n).next_sibling] else [])) = []
            then 0 else n) := by
  unfold breadth_first_adv
  rw [List.getLast?_concat, List.dropLast_concat]
  by_cases hc : (g n).child ≠ 0 <;> by_cases hs : (g n).next_sibling ≠ 0 <;>
    simp [hc, hs]

/-! ## C2 : the root-validity invariant (violated by erasing a childless node) -/

set_option maxHeartbeats 1600000 in
/-- C2 failing evaluation.  In the tree with a single childless child (id 1)
under the root, `erase(1)` seeds its cascade worklist with `erased.child`,
which is 0; the loop then pops 0 and tears down the ROOT: afterwards node 0 is
invalid and sits on the free list, refuting the invariant that id 0 is valid
in every reachable state. -/
theorem root_invalidated_by_leaf_erase :
    valid treeLeaf 0 = true ∧ valid treeLeaf 1 = true ∧
    (treeLeaf.graph 1).child = 0 ∧
    (directed_tree.erase treeLeaf 1 30).2 = true ∧
    valid (directed_tree.erase treeLeaf 1 30).1 0 = false ∧
    0 ∈ (directed_tree.erase treeLeaf 1 30).1.freed := by
  decide

/-! ## C3 : insert-before and the forward child chain -/

set_option maxHeartbeats 1600000 in
/-- C3 failing evaluation.  In the tree whose root has children 1 and 2,
`insert(v, 0, 2)` creates node 3 and claims to place it immediately before 2;
but the source never repoints the previous sibling's `next_sibling`, so the
child iteration order of the root (first_child, then next_sibling) is still
[1, 2] and the new node 3 does not appear in it at all — only the `prev`
pointers record the insertion. -/
theorem insert_before_skips_forward_chain :
    childList treeTwo.graph 0 10 = [1, 2] ∧
    (directed_tree.insert treeTwo 30 0 2).2 = 3 ∧
    childList (directed_tree.insert treeTwo 30 0 2).1.graph 0 10 = [1, 2] ∧
    3 ∉ childList (directed_tree.insert treeTwo 30 0 2).1.graph 0 10 ∧
    ((directed_tree.insert treeTwo 30 0 2).1.graph 3).next_sibling = 2 ∧
    ((directed_tree.insert treeTwo 30 0 2).1.graph 2).prev_sibling = 3 ∧
    ((directed_tree.insert treeTwo 30 0 2).1.graph 1).next_sibling = 2 := by
  decide

/-! ## C4 : erase and the parent's first_child -/

set_option maxHeartbeats 1600000 in
/-- C4 failing evaluation.  In the tree whose root has children 1, 2, 3,
erasing the middle child 2 — which is NOT the head of the sibling list —
nevertheless repoints the root's `first_child` from 1 to `erased.next_sibling`
(= 3): the source performs `graph_[erased.parent].child = erased.next_sibling`
unconditionally, against the claim that `first_child` is repointed only when
the erased node was the head. -/
theorem erase_repoints_first_child_unconditionally :
    (treeThree.graph 0).child = 1 ∧
    (treeThree.graph 0).child ≠ 2 ∧
    (directed_tree.erase treeThree 2 30).2 = true ∧
    ((directed_tree.erase treeThree 2 30).1.graph 0).child = 3 ∧
    ((directed_tree.erase treeThree 2 30).1.graph 0).child ≠ 1 := by
  decide

/-! ## C6 : clear and the free list -/

set_option maxHeartbeats 1600000 in
/-- C6 failing evaluation.  `clear()` on a freshly constructed tree destroys
the valid slots and resets size and capacity to zero, but its loop PUSHES
every previously-valid id (here the root, 0) onto the free list and the
source never empties `freed_`: after `clear` the free list is [0], not empty
as the claim states. -/
theorem clear_leaves_free_list_nonempty :
    (clear (mkTree (0 : Nat))).size = 0 ∧
    (clear (mkTree (0 : Nat))).capacity = 0 ∧
    (clear (mkTree (0 : Nat))).data 0 = none ∧
    (clear (mkTree (0 : Nat))).freed = [0] ∧
    (clear (mkTree (0 : Nat))).freed ≠ [] := by
  decide

/-! ## C5 : swap -/

set_option maxHeartbeats 1600000 in
/-- C5 counterexample.  Root with children 1 and 2 (same parent, 1 the head):
both valid non-root nodes; 1 is its parent's first_child before `swap(1, 2)`,
yet afterwards the parent's first_child is still 1, not 2 — the two repointing
conditionals fire in sequence and the second undoes the first whenever the two
nodes share a parent whose `child` pointed at `a`. -/
theorem swap_same_parent_counterexample :
    (treeTwo.graph 1).parent = 0 ∧ (treeTwo.graph 2).parent = 0 ∧
    valid treeTwo 1 = true ∧ valid treeTwo 2 = true ∧
    (treeTwo.graph 0).child = 1 ∧
    ((directed_tree.swap treeTwo 1 2).graph 0).child = 1 ∧
    ((directed_tree.swap treeTwo 1 2).graph 0).child ≠ 2 := by
  decide


/-- The index permutation a record swap induces on the arena. -/
def swapFn (a b x : Nat) : Nat := if x = b then a else if x = a then b else x

theorem swapFn_invol (a b x : Nat) : swapFn a b (swapFn a b x) = x := by
  unfold swapFn
  by_cases hxb : x = b <;> by_cases hxa : x = a <;>
    by_cases hab : a = b <;> simp [hxb, hxa, hab]

theorem upd_setChild_parent (g : Nat → Node_) (p c x : Nat) :
    (upd g p { g p with child := c } x).parent = (g x).parent := by
  unfold upd; split
  · next h => subst h; rfl
  · rfl

theorem upd_setChild_flags (g : Nat → Node_) (p c x : Nat) :
    (upd g p { g p with child := c } x).flags = (g x).flags := by
  unfold upd; split
  · next h => subst h; rfl
  · rfl

theorem upd_setChild_next (g : Nat → Node_) (p c x : Nat) :
    (upd g p { g p with child := c } x).next_sibling = (g x).next_sibling := by
  unfold upd; split
  · next h => subst h; rfl
  · rfl

theorem upd_setChild_prev (g : Nat → Node_) (p c x : Nat) :
    (upd g p { g p with child := c } x).prev_sibling = (g x).prev_sibling := by
  unfold upd; split
  · next h => subst h; rfl
  · rfl

theorem upd_setFlags_parent (g : Nat → Node_) (p f x : Nat) :
    (upd g p { g p with flags := f } x).parent = (g x).parent := by
  unfold upd; split
  · next h => subst h; rfl
  · rfl

theorem upd_setFlags_next (g : Nat → Node_) (p f x : Nat) :
    (upd g p { g p with flags := f } x).next_sibling = (g x).next_sibling := by
  unfold upd; split
  · next h => subst h; rfl
  · rfl

theorem upd_setFlags_child (g : Nat → Node_) (p f x : Nat) :
    (upd g p { g p with flags := f } x).child = (g x).child := by
  unfold upd; split
  · next h => subst h; rfl
  · rfl

theorem upd_setFlags_prev (g : Nat → Node_) (p f x : Nat) :
    (upd g p { g p with flags := f } x).prev_sibling = (g x).prev_sibling := by
  unfold upd; split
  · next h => subst h; rfl
  · rfl

theorem upd_setPrev_next (g : Nat → Node_) (p v x : Nat) :
    (upd g p { g p with prev_sibling := v } x).next_sibling = (g x).next_sibling := by
  unfold upd; split
  · next h => subst h; rfl
  · rfl

theorem upd_setPrev_child (g : Nat → Node_) (p v x : Nat) :
    (upd g p { g p with prev_sibling := v } x).child = (g x).child := by
  unfold upd; split
  · next h => subst h; rfl
  · rfl

theorem upd_setPrev_flags (g : Nat → Node_) (p v x : Nat) :
    (upd g p { g p with prev_sibling := v } x).flags = (g x).flags := by
  unfold upd; split
  · next h => subst h; rfl
  · rfl

theorem upd_setPrev_parent (g : Nat → Node_) (p v x : Nat) :
    (upd g p { g p with prev_sibling := v } x).parent = (g x).parent := by
  unfold upd; split
  · next h => subst h; rfl
  · rfl

theorem upd_setNext_child (g : Nat → Node_) (p v x : Nat) :
    (upd g p { g p with next_sibling := v } x).child = (g x).child := by
  unfold upd; split
  · next h => subst h; rfl
  · rfl

theorem upd_setNext_flags (g : Nat → Node_) (p v x : Nat) :
    (upd g p { g p with next_sibling := v } x).flags = (g x).flags := by
  unfold upd; split
  · next h => subst h; rfl
  · rfl

theorem upd_setNext_prev (g : Nat → Node_) (p v x : Nat) :
    (upd g p { g p with next_sibling := v } x).prev_sibling = (g x).prev_sibling := by
  unfold upd; split
  · next h => subst h; rfl
  · rfl

theorem upd_setNext_parent (g : Nat → Node_) (p v x : Nat) :
    (upd g p { g p with next_sibling := v } x).parent = (g x).parent := by
  unfold upd; split
  · next h => subst h; rfl
  · rfl

/-- The record exchange itself, viewed through the `parent` projection. -/
theorem double_upd_parent (g : Nat → Node_) (a b x : Nat) :
    ((upd (upd g a (g b)) b (g a)) x).parent = (g (swapFn a b x)).parent := by
  unfold swapFn
  by_cases hxb : x = b
  · subst hxb; rw [upd_self]; simp
  · rw [upd_ne _ _ _ _ hxb]
    by_cases hxa : x = a
    · subst hxa; rw [upd_self]; simp [hxb]
    · rw [upd_ne _ _ _ _ hxa]; simp [hxb, hxa]

/-- The record exchange itself, viewed through the `flags` projection. -/
theorem double_upd_flags (g : Nat → Node_) (a b x : Nat) :
    ((upd (upd g a (g b)) b (g a)) x).flags = (g (swapFn a b x)).flags := by
  unfold swapFn
  by_cases hxb : x = b
  · subst hxb; rw [upd_self]; simp
  · rw [upd_ne _ _ _ _ hxb]
    by_cases hxa : x = a
    · subst hxa; rw [upd_self]; simp [hxb]
    · rw [upd_ne _ _ _ _ hxa]; simp [hxb, hxa]

/-- A conditional child-repointing never changes the parent seen at any slot. -/
theorem cond_setChild_parent (G : Nat → Node_) (c : Prop) [Decidable c] (p v x : Nat) :
    ((if c then upd G p { G p with child := v } else G) x).parent = (G x).parent := by
  split
  · rw [upd_setChild_parent]
  · rfl

/-- A conditional child-repointing never changes the flags seen at any slot. -/
theorem cond_setChild_flags (G : Nat → Node_) (c : Prop) [Decidable c] (p v x : Nat) :
    ((if c then upd G p { G p with child := v } else G) x).flags = (G x).flags := by
  split
  · rw [upd_setChild_flags]
  · rfl

/-- After `swap(a, b)` the record seen at `x` carries the parent field of the
record that was at `swapFn a b x` : the two conditional repointings touch only
`child` fields. -/
theorem swap_parent_view {V : Type} [Inhabited V] (t : directed_tree V) (a b x : Nat) :
    ((directed_tree.swap t a b).graph x).parent = (t.graph (swapFn a b x)).parent := by
  unfold directed_tree.swap
  dsimp only
  rw [cond_setChild_parent, cond_setChild_parent]
  exact double_upd_parent t.graph a b x

/-- After `swap(a, b)` the record seen at `x` carries the flags of the record
that was at `swapFn a b x`. -/
theorem swap_flags_view {V : Type} [Inhabited V] (t : directed_tree V) (a b x : Nat) :
    ((directed_tree.swap t a b).graph x).flags = (t.graph (swapFn a b x)).flags := by
  unfold directed_tree.swap
  dsimp only
  rw [cond_setChild_flags, cond_setChild_flags]
  exact double_upd_flags t.graph a b x

theorem swap_count {V : Type} [Inhabited V] (t : directed_tree V) (a b : Nat)
    (ha : a < t.size) (hb : b < t.size) :
    valid_count (directed_tree.swap t a b) = valid_count t := by
  unfold valid_count
  have hsz : (directed_tree.swap t a b).size = t.size := rfl
  rw [hsz]
  have hmem : ∀ x : Nat, x < t.size → swapFn a b x < t.size := by
    intro x hx
    unfold swapFn
    split
    · exact ha
    · split
      · exact hb
      · exact hx
  have hval : ∀ x, nodeValid ((directed_tree.swap t a b).graph x) =
      nodeValid (t.graph (swapFn a b x)) := by
    intro x
    unfold nodeValid
    rw [swap_flags_view]
  apply Finset.card_nbij' (swapFn a b) (swapFn a b)
  · intro x hx
    simp only [Finset.mem_filter, Finset.mem_range] at hx ⊢
    exact ⟨hmem x hx.1, by rw [← hval x]; exact hx.2⟩
  · intro x hx
    simp only [Finset.mem_filter, Finset.mem_range] at hx ⊢
    refine ⟨hmem x hx.1, ?_⟩
    rw [hval (swapFn a b x), swapFn_invol]
    exact hx.2
  · intro x _
    exact swapFn_invol a b x
  · intro x _
    exact swapFn_invol a b x

/-- When `a` and `b` hang under distinct parents (and `a`'s parent is neither
`a` nor `b`) and `a` was its parent's first child, the record swap leaves `b`
as that parent's first child: the first conditional fires and the second one
targets the other parent. -/
theorem swap_firstChild {V : Type} [Inhabited V] (t : directed_tree V) (a b : Nat)
    (hpa1 : (t.graph a).parent ≠ a) (hpa2 : (t.graph a).parent ≠ b)
    (hpp : (t.graph a).parent ≠ (t.graph b).parent)
    (hc : (t.graph ((t.graph a).parent)).child = a) :
    ((directed_tree.swap t a b).graph ((t.graph a).parent)).child = b := by
  have hab : a ≠ b := fun h => hpp (by rw [h])
  unfold directed_tree.swap
  dsimp only
  rw [upd_self]
  have e2 : upd (upd t.graph a (t.graph b)) b (t.graph a) ((t.graph a).parent)
      = t.graph ((t.graph a).parent) := by
    rw [upd_ne _ _ _ _ hpa2, upd_ne _ _ _ _ hpa1]
  rw [e2, if_pos hc]
  have e3 : upd (upd (upd t.graph a (t.graph b)) b (t.graph a)) ((t.graph a).parent)
      { t.graph ((t.graph a).parent) with child := b } a = t.graph b := by
    rw [upd_ne _ _ _ _ (Ne.symm hpa1), upd_ne _ _ _ _ hab, upd_self]
  rw [e3]
  split
  · rw [upd_ne _ _ _ _ hpp, upd_self]
  · rw [upd_self]

/-- C5 amended.  `swap(a, b)` (for in-range ids) always preserves the number
of valid nodes, and in terms of parent links every relationship is preserved
except that `a` and `b` exchange theirs (each node's record moves wholesale);
the claim's first-child clause holds only under the additional hypotheses the
counterexample forces: when `a`'s parent differs from `b`'s parent (and is
neither `a` nor `b`), if `a` was its parent's first_child before the swap then
`b` is that parent's first_child afterward.  (With a shared parent the two
repointing conditionals cancel each other, as the counterexample shows.) -/
theorem swap_amended {V : Type} [Inhabited V] (t : directed_tree V) (a b : Nat)
    (ha : a < t.size) (hb : b < t.size)
    (hpa1 : (t.graph a).parent ≠ a) (hpa2 : (t.graph a).parent ≠ b)
    (hpp : (t.graph a).parent ≠ (t.graph b).parent) :
    valid_count (directed_tree.swap t a b) = valid_count t ∧
    (∀ x, x ≠ a → x ≠ b →
      ((directed_tree.swap t a b).graph x).parent = (t.graph x).parent) ∧
    ((directed_tree.swap t a b).graph a).parent = (t.graph b).parent ∧
    ((directed_tree.swap t a b).graph b).parent = (t.graph a).parent ∧
    ((t.graph ((t.graph a).parent)).child = a →
      ((directed_tree.swap t a b).graph ((t.graph a).parent)).child = b) := by
  refine ⟨swap_count t a b ha hb, ?_, ?_, ?_,
    fun hc => swap_firstChild t a b hpa1 hpa2 hpp hc⟩
  · intro x hxa hxb
    rw [swap_parent_view]
    unfold swapFn
    rw [if_neg hxb, if_neg hxa]
  · have hab : a ≠ b := fun h => hpp (by rw [h])
    rw [swap_parent_view]
    unfold swapFn
    rw [if_neg hab, if_pos rfl]
  · rw [swap_parent_view]
    unfold swapFn
    rw [if_pos rfl]

set_option maxHeartbeats 1600000 in
theorem swap_amended_witness :
    valid_count (directed_tree.swap treeABC 1 3) = valid_count treeABC ∧
    ((directed_tree.swap treeABC 1 3).graph 0).child = 3 := by
  have h := swap_amended treeABC 1 3 (by decide) (by decide) (by decide) (by decide)
    (by decide)
  exact ⟨h.1, h.2.2.2.2 (by decide)⟩

/-! ## Stage lemmas for the erase surgery -/

theorem clearFlagsAt_parent (g : Nat → Node_) (i x : Nat) :
    (clearFlagsAt g i x).parent = (g x).parent := by
  unfold clearFlagsAt; rw [upd_setFlags_parent]

theorem clearFlagsAt_child (g : Nat → Node_) (i x : Nat) :
    (clearFlagsAt g i x).child = (g x).child := by
  unfold clearFlagsAt; rw [upd_setFlags_child]

theorem clearFlagsAt_next (g : Nat → Node_) (i x : Nat) :
    (clearFlagsAt g i x).next_sibling = (g x).next_sibling := by
  unfold clearFlagsAt; rw [upd_setFlags_next]

theorem clearFlagsAt_prev (g : Nat → Node_) (i x : Nat) :
    (clearFlagsAt g i x).prev_sibling = (g x).prev_sibling := by
  unfold clearFlagsAt; rw [upd_setFlags_prev]

theorem clearFlagsAt_self_flags (g : Nat → Node_) (i : Nat) :
    (clearFlagsAt g i i).flags = 0 := by
  unfold clearFlagsAt; rw [upd_self]

theorem clearFlagsAt_self_invalid (g : Nat → Node_) (i : Nat) :
    nodeValid (clearFlagsAt g i i) = false := by
  unfold nodeValid; rw [clearFlagsAt_self_flags]; decide

theorem clearFlagsAt_invalid_mono (g : Nat → Node_) (i x : Nat)
    (h : nodeValid (g x) = false) : nodeValid (clearFlagsAt g i x) = false := by
  by_cases hx : x = i
  · subst hx; exact clearFlagsAt_self_invalid g x
  · unfold clearFlagsAt; rw [show upd g i { g i with flags := 0 } x = g x from upd_ne _ _ _ _ hx]
    exact h

theorem setChildAt_parent (g : Nat → Node_) (p c x : Nat) :
    (setChildAt g p c x).parent = (g x).parent := by
  unfold setChildAt; rw [upd_setChild_parent]

theorem setChildAt_next (g : Nat → Node_) (p c x : Nat) :
    (setChildAt g p c x).next_sibling = (g x).next_sibling := by
  unfold setChildAt; rw [upd_setChild_next]

theorem setChildAt_prev (g : Nat → Node_) (p c x : Nat) :
    (setChildAt g p c x).prev_sibling = (g x).prev_sibling := by
  unfold setChildAt; rw [upd_setChild_prev]

theorem setChildAt_flags (g : Nat → Node_) (p c x : Nat) :
    (setChildAt g p c x).flags = (g x).flags := by
  unfold setChildAt; rw [upd_setChild_flags]

theorem setChildAt_ne (g : Nat → Node_) (p c x : Nat) (h : x ≠ p) :
    setChildAt g p c x = g x := by
  unfold setChildAt; exact upd_ne _ _ _ _ h

theorem condSetPrev_next (c : Prop) [Decidable c] (g : Nat → Node_) (p v x : Nat) :
    ((if c then setPrevAt g p v else g) x).next_sibling = (g x).next_sibling := by
  split
  · unfold setPrevAt; rw [upd_setPrev_next]
  · rfl

theorem condSetPrev_child (c : Prop) [Decidable c] (g : Nat → Node_) (p v x : Nat) :
    ((if c then setPrevAt g p v else g) x).child = (g x).child := by
  split
  · unfold setPrevAt; rw [upd_setPrev_child]
  · rfl

theorem condSetPrev_flags (c : Prop) [Decidable c] (g : Nat → Node_) (p v x : Nat) :
    ((if c then setPrevAt g p v else g) x).flags = (g x).flags := by
  split
  · unfold setPrevAt; rw [upd_setPrev_flags]
  · rfl

/-- Writing a slot's own current `prev_sibling` value anywhere leaves every
`prev_sibling` reading of that slot unchanged (the write is a value no-op when
it aliases the slot). -/
theorem condSetPrev_prev_value (c : Prop) [Decidable c] (g : Nat → Node_) (p x : Nat) :
    ((if c then setPrevAt g p ((g x).prev_sibling) else g) x).prev_sibling =
      (g x).prev_sibling := by
  split
  · unfold setPrevAt upd
    split
    · next h => subst h; rfl
    · rfl
  · rfl

theorem condSetNext_flags (c : Prop) [Decidable c] (g : Nat → Node_) (p v x : Nat) :
    ((if c then setNextAt g p v else g) x).flags = (g x).flags := by
  split
  · unfold setNextAt; rw [upd_setNext_flags]
  · rfl

theorem condSetNext_child (c : Prop) [Decidable c] (g : Nat → Node_) (p v x : Nat) :
    ((if c then setNextAt g p v else g) x).child = (g x).child := by
  split
  · unfold setNextAt; rw [upd_setNext_child]
  · rfl

theorem condSetNext_ne (c : Prop) [Decidable c] (g : Nat → Node_) (p v x : Nat)
    (h : x ≠ p) : (if c then setNextAt g p v else g) x = g x := by
  split
  · unfold setNextAt; exact upd_ne _ _ _ _ h
  · rfl

theorem condSetPrev_ne (c : Prop) [Decidable c] (g : Nat → Node_) (p v x : Nat)
    (h : x ≠ p) : (if c then setPrevAt g p v else g) x = g x := by
  split
  · unfold setPrevAt; exact upd_ne _ _ _ _ h
  · rfl

theorem condSetPrev_prev_of (c : Prop) [Decidable c] (g : Nat → Node_) (p v x : Nat)
    (h : v = (g x).prev_sibling) :
    ((if c then setPrevAt g p v else g) x).prev_sibling = (g x).prev_sibling := by
  subst h
  exact condSetPrev_prev_value c g p x

/-- After the erase surgery the erased node is invalid: every later write
preserves the flags the first write cleared. -/
theorem erasePatch_invalid (g : Nat → Node_) (id : Nat) :
    nodeValid (erasePatch g id id) = false := by
  unfold erasePatch
  unfold nodeValid
  simp only [condSetNext_flags, condSetPrev_flags, setChildAt_flags]
  rw [clearFlagsAt_self_flags]
  decide

/-- The cascade seed: the erased node's `child` field survives the surgery
when the node is not its own parent. -/
theorem erasePatch_child_self (g : Nat → Node_) (id : Nat)
    (hp : (g id).parent ≠ id) :
    (erasePatch g id id).child = (g id).child := by
  unfold erasePatch
  simp only [condSetNext_child, condSetPrev_child, clearFlagsAt_parent,
    clearFlagsAt_child, clearFlagsAt_next, clearFlagsAt_prev, setChildAt_next,
    setChildAt_prev, setChildAt_flags, setChildAt_parent, condSetPrev_next,
    condSetPrev_prev_of]
  rw [setChildAt_ne _ _ _ _ (Ne.symm hp)]
  exact clearFlagsAt_child g id id

/-- Away from the erased node's parent and previous sibling, the surgery
changes no `next_sibling` or `child` link. -/
theorem erasePatch_links (g : Nat → Node_) (id y : Nat)
    (hyp : y ≠ (g id).parent) (hyv : y ≠ (g id).prev_sibling) :
    (erasePatch g id y).next_sibling = (g y).next_sibling ∧
    (erasePatch g id y).child = (g y).child := by
  unfold erasePatch
  simp only [clearFlagsAt_parent, clearFlagsAt_child, clearFlagsAt_next,
    clearFlagsAt_prev, setChildAt_next, setChildAt_prev, setChildAt_flags,
    setChildAt_parent, condSetPrev_next, condSetPrev_child, condSetPrev_flags,
    condSetPrev_prev_of]
  constructor
  · rw [condSetNext_ne _ _ _ _ _ hyv]
    simp only [condSetPrev_next]
    rw [setChildAt_ne _ _ _ _ hyp]
    exact clearFlagsAt_next g id y
  · rw [condSetNext_ne _ _ _ _ _ hyv]
    simp only [condSetPrev_child]
    rw [setChildAt_ne _ _ _ _ hyp]
    exact clearFlagsAt_child g id y

/-! ## Reachability lemmas -/

theorem reaches_ne_zero {g : Nat → Node_} {s d : Nat} (hs : s ≠ 0)
    (h : reaches g s d) : d ≠ 0 := by
  induction h with
  | refl => exact hs
  | tail _ h2 _ => exact h2.1

theorem reaches_congr {g g' : Nat → Node_}
    (h : ∀ z, (g' z).next_sibling = (g z).next_sibling ∧
         (g' z).child = (g z).child)
    {s d : Nat} (hr : reaches g s d) : reaches g' s d :=
  Relation.ReflTransGen.mono
    (fun a b hab => ⟨hab.1, by rw [(h a).1, (h a).2]; exact hab.2⟩) hr

/-- A reachability path that stays clear of the erased node's parent and
previous sibling survives the erase surgery: every link it reads is
preserved. -/
theorem reaches_erasePatch (g : Nat → Node_) (id c : Nat)
    (hpd : ¬ reaches g c ((g id).parent))
    (hvd : ¬ reaches g c ((g id).prev_sibling))
    {d : Nat} (hr : reaches g c d) : reaches (erasePatch g id) c d := by
  induction hr with
  | refl => exact Relation.ReflTransGen.refl
  | @tail b e hab hstep1 ih =>
    refine Relation.ReflTransGen.tail ih ?_
    have hbp : b ≠ (g id).parent := fun h => hpd (h ▸ hab)
    have hbv : b ≠ (g id).prev_sibling := fun h => hvd (h ▸ hab)
    obtain ⟨hl1, hl2⟩ := erasePatch_links g id b hbp hbv
    exact ⟨hstep1.1, by rw [hl1, hl2]; exact hstep1.2⟩

/-! ## Cascade lemmas -/

theorem eraseLoop_cons {V : Type} (fuel n : Nat) (rest : List Nat)
    (g : Nat → Node_) (fr : List Nat) (d : Nat → Option V) :
    directed_tree.eraseLoop (fuel + 1) (n :: rest) g fr d =
      directed_tree.eraseLoop fuel
        (if (clearFlagsAt g n n).child ≠ 0 then
           (clearFlagsAt g n n).child ::
             (if (clearFlagsAt g n n).next_sibling ≠ 0 then
                (clearFlagsAt g n n).next_sibling :: rest
              else rest)
         else
           (if (clearFlagsAt g n n).next_sibling ≠ 0 then
              (clearFlagsAt g n n).next_sibling :: rest
            else rest))
        (clearFlagsAt g n) (fr ++ [n]) (updD d n none) := rfl

theorem eraseLoop_cons' {V : Type} (fuel n : Nat) (rest : List Nat)
    (g : Nat → Node_) (fr : List Nat) (d : Nat → Option V) :
    directed_tree.eraseLoop (fuel + 1) (n :: rest) g fr d =
      directed_tree.eraseLoop fuel
        (if (g n).child ≠ 0 then
           (g n).child ::
             (if (g n).next_sibling ≠ 0 then (g n).next_sibling :: rest else rest)
         else
           (if (g n).next_sibling ≠ 0 then (g n).next_sibling :: rest else rest))
        (clearFlagsAt g n) (fr ++ [n]) (updD d n none) := by
  rw [eraseLoop_cons]
  simp only [clearFlagsAt_child, clearFlagsAt_next]

/-- The cascade only ever clears flags: an invalid slot stays invalid. -/
theorem eraseLoop_invalid_mono {V : Type} :
    ∀ (fuel : Nat) (stack : List Nat) (g : Nat → Node_) (fr : List Nat)
      (d : Nat → Option V) (x : Nat),
      nodeValid (g x) = false →
      nodeValid ((directed_tree.eraseLoop fuel stack g fr d).1.1 x) = false := by
  intro fuel
  induction fuel with
  | zero =>
    intro stack g fr d x hx
    cases stack with
    | nil => exact hx
    | cons m rest => exact hx
  | succ n ih =>
    intro stack g fr d x hx
    cases stack with
    | nil => exact hx
    | cons m rest =>
      rw [eraseLoop_cons']
      exact ih _ _ _ _ _ (clearFlagsAt_invalid_mono g m x hx)

/-- Worklist completeness of the cascade: when the loop terminates (the
worklist empties within the fuel), every id reachable from a stack entry
along `next_sibling` / `first_child` links ends up invalid. -/
theorem eraseLoop_complete {V : Type} :
    ∀ (fuel : Nat) (stack : List Nat) (g : Nat → Node_) (fr : List Nat)
      (d : Nat → Option V),
      (directed_tree.eraseLoop fuel stack g fr d).2 = true →
      ∀ s ∈ stack, ∀ x, reaches g s x →
        nodeValid ((directed_tree.eraseLoop fuel stack g fr d).1.1 x) = false := by
  intro fuel
  induction fuel with
  | zero =>
    intro stack g fr d hterm s hs x hr
    cases stack with
    | nil => cases hs
    | cons m rest => cases hterm
  | succ n ih =>
    intro stack g fr d hterm s hs x hr
    cases stack with
    | nil => cases hs
    | cons m rest =>
      rw [eraseLoop_cons'] at hterm ⊢
      have hlinks : ∀ z, ((clearFlagsAt g m) z).next_sibling = (g z).next_sibling ∧
          ((clearFlagsAt g m) z).child = (g z).child :=
        fun z => ⟨clearFlagsAt_next g m z, clearFlagsAt_child g m z⟩
      have hr1 : reaches (clearFlagsAt g m) s x := reaches_congr hlinks hr
      rcases List.mem_cons.mp hs with rfl | hsr
      · rcases Relation.ReflTransGen.cases_head hr1 with heq | ⟨y, hy, hr2⟩
        · subst heq
          exact eraseLoop_invalid_mono _ _ _ _ _ _ (clearFlagsAt_self_invalid g s)
        · have hy2 : y = (g s).next_sibling ∨ y = (g s).child := by
            rcases hy.2 with h | h
            · left; rw [h, clearFlagsAt_next]
            · right; rw [h, clearFlagsAt_child]
          have hmem : y ∈ (if (g s).child ≠ 0 then
              (g s).child ::
                (if (g s).next_sibling ≠ 0 then (g s).next_sibling :: rest else rest)
            else
              (if (g s).next_sibling ≠ 0 then (g s).next_sibling :: rest else rest)) := by
            rcases hy2 with h | h
            · subst h
              rw [if_pos hy.1]
              split
              · exact List.mem_cons_of_mem _ (List.mem_cons_self _ _)
              · exact List.mem_cons_self _ _
            · subst h
              rw [if_pos hy.1]
              exact List.mem_cons_self _ _
          exact ih _ _ _ _ hterm y hmem x hr2
      · have hmem : s ∈ (if (g m).child ≠ 0 then
            (g m).child ::
              (if (g m).next_sibling ≠ 0 then (g m).next_sibling :: rest else rest)
          else
            (if (g m).next_sibling ≠ 0 then (g m).next_sibling :: rest else rest)) := by
          split
          · refine List.mem_cons_of_mem _ ?_
            split
            · exact List.mem_cons_of_mem _ hsr
            · exact hsr
          · split
            · exact List.mem_cons_of_mem _ hsr
            · exact hsr
        exact ih _ _ _ _ hterm s hmem x hr1

/-- Every id the unordered cursor delivers carries a set valid flag: the skip
loop only stops on a valid non-root slot. -/
theorem unorderedRun_mem (g : Nat → Node_) (size : Nat) :
    ∀ (fuel current x : Nat), x ∈ unorderedRun g size current fuel →
      nodeValid (g x) = true := by
  intro fuel
  induction fuel with
  | zero =>
    intro current x hx
    cases hx
  | succ n ih =>
    intro current x hx
    unfold unorderedRun at hx
    by_cases h1 : nodeValid (g current) = false ∨ current = 0
    · rw [if_pos h1] at hx
      exact ih _ _ hx
    · rw [if_neg h1] at hx
      by_cases h2 : current = size
      · rw [if_pos h2] at hx
        cases hx
      · rw [if_neg h2] at hx
        rcases List.mem_cons.mp hx with rfl | hx2
        · cases hnv : nodeValid (g x) with
          | false => exact absurd (Or.inl hnv) h1
          | true => rfl
        · exact ih _ _ hx2

theorem erase_ne {V : Type} (t : directed_tree V) (id fuel : Nat) (hid : id ≠ 0) :
    directed_tree.erase t id fuel =
      (let g := erasePatch t.graph id
       let r := directed_tree.eraseLoop fuel [(g id).child] g (t.freed ++ [id])
         (updD t.data id none)
       ({ t with graph := r.1.1, freed := r.1.2.1, data := r.1.2.2 }, r.2)) := by
  unfold directed_tree.erase
  rw [if_neg hid]

/-! ## C1 : erase removes the subtree from unordered scans -/

/-- C1.  For every tree and non-root id with a valid record (plus structural
sanity hypotheses: the node is not its own parent, and neither its parent nor
its previous sibling lies inside its own subtree — true of every well-formed
tree), when the erase cascade terminates within its fuel, an unordered scan of
the resulting state never yields `id` nor any former descendant of `id` (the
nodes reachable from `first_child id` through `next_sibling` / `first_child`
links), and the arena capacity is unchanged. -/
theorem erase_removes_subtree {V : Type} [Inhabited V] (t : directed_tree V)
    (id fuel : Nat)
    (hid : id ≠ 0) (_hvalid : directed_tree.valid t id = true)
    (hp : (t.graph id).parent ≠ id)
    (hpd : ¬ Descendant t id ((t.graph id).parent))
    (hvd : ¬ Descendant t id ((t.graph id).prev_sibling))
    (hterm : (directed_tree.erase t id fuel).2 = true) :
    (directed_tree.erase t id fuel).1.capacity = t.capacity ∧
    (∀ f2, id ∉ unorderedRun (directed_tree.erase t id fuel).1.graph
        (directed_tree.erase t id fuel).1.size 0 f2) ∧
    (∀ d, Descendant t id d →
      ∀ f2, d ∉ unorderedRun (directed_tree.erase t id fuel).1.graph
          (directed_tree.erase t id fuel).1.size 0 f2) := by
  rw [erase_ne t id fuel hid] at hterm ⊢
  dsimp only at hterm ⊢
  refine ⟨rfl, ?_, ?_⟩
  · intro f2 hmem
    have hval := unorderedRun_mem _ _ _ _ _ hmem
    have hinv : nodeValid ((directed_tree.eraseLoop fuel
        [(erasePatch t.graph id id).child] (erasePatch t.graph id)
        (t.freed ++ [id]) (updD t.data id none)).1.1 id) = false :=
      eraseLoop_invalid_mono _ _ _ _ _ _ (erasePatch_invalid t.graph id)
    rw [hinv] at hval
    exact Bool.noConfusion hval
  · intro d hd f2 hmem
    obtain ⟨hch, hr⟩ := hd
    have hval := unorderedRun_mem _ _ _ _ _ hmem
    have hpd' : ¬ reaches t.graph ((t.graph id).child) ((t.graph id).parent) :=
      fun h0 => hpd ⟨hch, h0⟩
    have hvd' : ¬ reaches t.graph ((t.graph id).child) ((t.graph id).prev_sibling) :=
      fun h0 => hvd ⟨hch, h0⟩
    have hr' : reaches (erasePatch t.graph id) ((t.graph id).child) d :=
      reaches_erasePatch t.graph id ((t.graph id).child) hpd' hvd' hr
    rw [erasePatch_child_self t.graph id hp] at hterm hval
    have hcomp := eraseLoop_complete fuel [(t.graph id).child]
      (erasePatch t.graph id) (t.freed ++ [id]) (updD t.data id none) hterm
      ((t.graph id).child) (List.mem_singleton_self _) d hr'
    rw [hcomp] at hval
    exact Bool.noConfusion hval

set_option maxHeartbeats 1600000 in
theorem erase_removes_subtree_witness :
    (directed_tree.erase treeABC 1 30).1.capacity = treeABC.capacity ∧
    1 ∉ unorderedRun (directed_tree.erase treeABC 1 30).1.graph
        (directed_tree.erase treeABC 1 30).1.size 0 30 ∧
    3 ∉ unorderedRun (directed_tree.erase treeABC 1 30).1.graph
        (directed_tree.erase treeABC 1 30).1.size 0 30 := by
  have hpd : ¬ Descendant treeABC 1 ((treeABC.graph 1).parent) :=
    fun hc => reaches_ne_zero (show (3 : Nat) ≠ 0 by decide) hc.2 (by decide)
  have hvd : ¬ Descendant treeABC 1 ((treeABC.graph 1).prev_sibling) :=
    fun hc => reaches_ne_zero (show (3 : Nat) ≠ 0 by decide) hc.2 (by decide)
  have h := erase_removes_subtree treeABC 1 30 (by decide) (by decide) (by decide)
    hpd hvd (by decide)
  exact ⟨h.1, h.2.1 30,
    h.2.2 3 ⟨by decide, show reaches treeABC.graph 3 3 from Relation.ReflTransGen.refl⟩ 30⟩
